import Mathlib

/-!
# Verification of the log-file analyzer core (`log_analyzer.py`)

A shallow embedding of the core pipeline of `log_analyzer.py`: per-line record
extraction (`log_parser`, lines 86-98), aggregation (`analyze_log`,
lines 101-121) and statistics plus top-N ranking (`count_stats`,
lines 124-156).  Elapsed times are modelled as exact rationals, Python dicts
as insertion-ordered association lists, and Python exceptions as explicit
error values.
-/

namespace LogAnalyzer

open scoped List

/-- A parsed log record, the pair yielded by `log_parser` (line 98):
request URL and elapsed request time. -/
structure RawRecord where
  url : String
  time : ℚ
deriving DecidableEq

/-- The `totals` dict of `analyze_log` (lines 104-105): global request count
and total elapsed time. -/
structure Totals where
  total_requests : ℕ
  total_time : ℚ
deriving DecidableEq

/-- One value of the `urls` dict of `analyze_log` (line 119):
`{"count": ..., "request_times": [...]}`. -/
structure UrlAgg where
  count : ℕ
  request_times : List ℚ
deriving DecidableEq

/-- The `urls` dict of `analyze_log`: Python dicts preserve insertion order,
so it is modelled as an insertion-ordered association list. -/
abbrev UrlMap := List (String × UrlAgg)

/-! ## Record extraction (`log_parser`, lines 86-98) -/

/-- Splitting a character list at every character satisfying `p`, keeping the
(possibly empty) groups between consecutive separators.  `splitOnPred p`
applied to the characters of `s` models Python `s.split(c)` for a one-character
separator `c` recognised by `p`. -/
def splitOnPred (p : Char → Bool) : List Char → List (List Char)
  | [] => [[]]
  | c :: cs =>
    match splitOnPred p cs with
    | [] => [[]]
    | g :: gs => if p c then [] :: g :: gs else (c :: g) :: gs

/-- Python `line.split(" ")` (line 94): the fields of the line delimited by
single spaces, empty fields included. -/
def log_row (line : String) : List String :=
  (splitOnPred (· == ' ') line.toList).map fun g => String.mk g

/-- The whitespace-delimited tokens of a line in the spec's sense (§4.1):
maximal nonempty runs of non-whitespace characters.  This is Python
`line.split()` with no argument, kept here for comparison with `log_row`. -/
def wsTokens (line : String) : List String :=
  ((splitOnPred Char.isWhitespace line.toList).filter fun g => !g.isEmpty).map
    fun g => String.mk g

/-- Numeric value of a run of decimal digits, most significant first. -/
def digitsVal (ds : List Char) : ℕ :=
  ds.foldl (fun n c => 10 * n + (c.toNat - '0'.toNat)) 0

/-- Unsigned decimal numeral (`"12"`, `"12.5"`, `"12."`, `".5"`) read as an
exact rational; `none` when the characters are not of this form.  This models
CPython `float` on the plain decimal forms that occur in request-time fields;
exponent and special forms, which never occur there, are omitted. -/
def parseDecimal (cs : List Char) : Option ℚ :=
  let intPart := cs.takeWhile Char.isDigit
  let rest := cs.dropWhile Char.isDigit
  match rest with
  | [] => if intPart.isEmpty then none else some (digitsVal intPart)
  | '.' :: frac =>
    if frac.all Char.isDigit && (!intPart.isEmpty || !frac.isEmpty) then
      some ((digitsVal intPart : ℚ) + (digitsVal frac : ℚ) / (10 : ℚ) ^ frac.length)
    else none
  | _ => none

/-- Python `float(s)` (line 96): surrounding whitespace is ignored, then an
optional sign and a decimal numeral. -/
def pyFloat (s : String) : Option ℚ :=
  let cs := ((s.toList.dropWhile Char.isWhitespace).reverse.dropWhile
    Char.isWhitespace).reverse
  match cs with
  | '-' :: rest => (parseDecimal rest).map (fun q => -q)
  | '+' :: rest => parseDecimal rest
  | _ => parseDecimal cs

/-- The Python exceptions the extractor can raise: `IndexError` from
`log_row[7]`, `ValueError` from `float(...)`, and `RuntimeError` from a
`StopIteration` escaping the generator (PEP 479). -/
inductive PyError where
  | indexError
  | valueError
  | runtimeError
deriving DecidableEq

/-- One iteration of the loop body of `log_parser` (lines 94-98) on one line:
`log_row = line.split(" ")`; `request_url = log_row[7]` (`IndexError` when the
line has fewer than 8 single-space-delimited fields); `request_time =
float(log_row.pop())` (`ValueError` when the trailing field is not numeric;
`log_row` is never empty, so `pop` itself cannot fail).  Note that no check of
any kind is made on `request_url` itself. -/
def parse_line (line : String) : Except PyError RawRecord :=
  match (log_row line)[7]? with
  | none => .error .indexError
  | some request_url =>
    match (log_row line).getLast? with
    | none => .error .indexError
    | some lastField =>
      match pyFloat lastField with
      | none => .error .valueError
      | some request_time => .ok ⟨request_url, request_time⟩

/-- The complete run of the generator `log_parser` (lines 91-98) over the
lines of the source: the records yielded before termination paired with the
terminating exception, if any (`none` would mean clean exhaustion of the
generator).  After the last line, `next(file)` raises `StopIteration` inside
the generator body; since Python 3.7 (PEP 479) this is converted to
`RuntimeError`, so running out of lines terminates with an error. -/
def log_parser_run : List String → List RawRecord × Option PyError
  | [] => ([], some .runtimeError)
  | line :: rest =>
    match parse_line line with
    | .error e => ([], some e)
    | .ok r =>
      let p := log_parser_run rest
      (r :: p.1, p.2)

/-! ## Aggregation (`analyze_log`, lines 101-121) -/

/-- Association-list lookup, modelling both `request_url in urls` and
`urls[request_url]` (lines 114-116). -/
def lookupUrl : UrlMap → String → Option UrlAgg
  | [], _ => none
  | (k, v) :: rest, u => if k = u then some v else lookupUrl rest u

/-- In-place update of an existing key (lines 115-116):
`urls[request_url]["count"] += 1` and the append to `request_times`.  The
entry is modified where it stands, so dict order is unchanged. -/
def bumpUrl : UrlMap → String → ℚ → UrlMap
  | [], _, _ => []
  | (k, v) :: rest, u, t =>
    if k = u then (k, ⟨v.count + 1, v.request_times ++ [t]⟩) :: rest
    else (k, v) :: bumpUrl rest u t

/-- The body of the `for` loop of `analyze_log` (lines 108-119) for one
record: bump the totals, then update or create the per-URL entry.  A new key
added by `urls.update(...)` (line 119) goes to the end of the dict. -/
def analyzeStep (st : Totals × UrlMap) (r : RawRecord) : Totals × UrlMap :=
  let totals : Totals := ⟨st.1.total_requests + 1, st.1.total_time + r.time⟩
  if (lookupUrl st.2 r.url).isSome then
    (totals, bumpUrl st.2 r.url r.time)
  else
    (totals, st.2 ++ [(r.url, ⟨1, [r.time]⟩)])

/-- `analyze_log` (lines 101-121) on an in-memory record sequence: fold the
loop body over the records, starting from zero totals and an empty dict. -/
def analyze_log (recs : List RawRecord) : Totals × UrlMap :=
  recs.foldl analyzeStep (⟨0, 0⟩, [])

/-! ## Statistics and ranking (`count_stats`, lines 124-156) -/

/-- One row of the report built by `count_stats` (lines 142-151). -/
structure Stat where
  url : String
  count : ℕ
  count_perc : ℚ
  time_sum : ℚ
  time_perc : ℚ
  time_avg : ℚ
  time_max : ℚ
  time_med : ℚ
deriving DecidableEq

/-- Python `sum(request_times)` (line 135), starting from `0`. -/
def pySum (l : List ℚ) : ℚ := l.foldl (· + ·) 0

/-- Python `max(request_times)` (line 137).  The empty case never arises in
`count_stats` (Python would raise `ValueError` there). -/
def pyMax : List ℚ → ℚ
  | [] => 0
  | x :: xs => xs.foldl max x

/-- CPython `statistics.median(request_times)` (line 138): sort the data and
take the middle element (odd length) or the mean of the two middle elements
(even length).  The value-sorted order of rationals is unique, so
`insertionSort (· ≤ ·)` agrees with Python `sorted`.  The empty case never
arises in `count_stats` (Python raises `StatisticsError` there). -/
def pyMedian (l : List ℚ) : ℚ :=
  let s := l.insertionSort (· ≤ ·)
  let n := l.length
  if n % 2 = 1 then s.getD (n / 2) 0
  else (s.getD (n / 2 - 1) 0 + s.getD (n / 2) 0) / 2

/-- The body of the `for` loop of `count_stats` (lines 131-151) for one URL:
the derived statistics row appended to `_report`.  Note line 136 divides by
`len(request_times)`, not by `count`. -/
def statEntry (total_requests : ℕ) (total_time : ℚ) (url : String)
    (agg : UrlAgg) : Stat :=
  let time_sum := pySum agg.request_times
  { url := url
    count := agg.count
    count_perc := (agg.count : ℚ) * (total_requests : ℚ) / 100
    time_sum := time_sum
    time_perc := time_sum * total_time / 100
    time_avg := time_sum / (agg.request_times.length : ℚ)
    time_max := pyMax agg.request_times
    time_med := pyMedian agg.request_times }

/-- The ranking relation of line 153: descending request count. -/
def countGe (a b : Stat) : Prop := b.count ≤ a.count

instance : DecidableRel countGe := fun a b => Nat.decLe b.count a.count

instance : IsTotal Stat countGe := ⟨fun a b => Nat.le_total b.count a.count⟩

instance : IsTrans Stat countGe := ⟨fun _ _ _ h1 h2 => le_trans h2 h1⟩

/-- Lines 153-154: `sorted(_report, key=lambda item: item["count"],
reverse=True)[0:report_size]`.  Python `sorted` with `reverse=True` is the
stable sort by count descending, which is exactly `insertionSort countGe`
(insertion sort is stable, see `List.pair_sublist_insertionSort`). -/
def rank_select (report : List Stat) (report_size : ℕ) : List Stat :=
  (report.insertionSort countGe).take report_size

/-- `count_stats` (lines 124-156): build one statistics row per URL, in dict
order, then sort by count descending and truncate to `report_size`. -/
def count_stats (totals : Totals) (urls : UrlMap) (report_size : ℕ) :
    List Stat :=
  rank_select
    (urls.map fun p => statEntry totals.total_requests totals.total_time p.1 p.2)
    report_size

/-! ## Auxiliary definitions used by the theorems -/

/-- The key list of the `urls` dict, in dict (insertion) order. -/
def keys (m : UrlMap) : List String := m.map Prod.fst

/-- Index of the first occurrence of `a` in `l` (the length of `l` when `a`
is absent). -/
def idx {α : Type} [DecidableEq α] (a : α) : List α → ℕ
  | [] => 0
  | x :: xs => if x = a then 0 else idx a xs + 1

/-- The key list obtained by feeding a sequence of URL observations to an
insertion-ordered dict that starts with keys `acc`: a fresh URL is appended,
a known one leaves the keys unchanged. -/
def insKeys (acc : List String) (us : List String) : List String :=
  us.foldl (fun a u => if u ∈ a then a else a ++ [u]) acc

/-! ## Helper lemmas about `pySum` and `pyMax` -/

theorem foldl_add_eq (l : List ℚ) : ∀ a : ℚ, l.foldl (· + ·) a = a + l.sum := by
  induction l with
  | nil => intro a; simp
  | cons x xs ih => intro a; simp [ih, add_assoc]

/-- Python `sum` agrees with the mathematical list sum. -/
theorem pySum_eq_sum (l : List ℚ) : pySum l = l.sum := by
  simpa [pySum] using foldl_add_eq l 0

theorem pySum_append (l : List ℚ) (t : ℚ) : pySum (l ++ [t]) = pySum l + t := by
  simp [pySum_eq_sum]

theorem le_foldl_max (xs : List ℚ) : ∀ a : ℚ, a ≤ xs.foldl max a := by
  induction xs with
  | nil => intro a; simp
  | cons x xs ih => intro a; exact le_trans (le_max_left a x) (ih (max a x))

theorem mem_le_foldl_max (xs : List ℚ) : ∀ a x : ℚ, x ∈ xs → x ≤ xs.foldl max a := by
  induction xs with
  | nil => intro a x hx; cases hx
  | cons y ys ih =>
    intro a x hx
    rcases List.mem_cons.mp hx with h | h
    · subst h; exact le_trans (le_max_right a x) (le_foldl_max ys (max a x))
    · exact ih (max a y) x h

theorem foldl_max_mem (xs : List ℚ) : ∀ a : ℚ, xs.foldl max a = a ∨ xs.foldl max a ∈ xs := by
  induction xs with
  | nil => intro a; left; rfl
  | cons x xs ih =>
    intro a
    show xs.foldl max (max a x) = a ∨ xs.foldl max (max a x) ∈ x :: xs
    rcases ih (max a x) with h | h
    · rcases max_choice a x with hm | hm
      · rw [h, hm]; left; rfl
      · rw [h, hm]; right; exact List.mem_cons_self x xs
    · right; exact List.mem_cons_of_mem x h

/-- Python `max` of a nonempty list is an element of the list. -/
theorem pyMax_mem (l : List ℚ) (h : l ≠ []) : pyMax l ∈ l := by
  match l, h with
  | x :: xs, _ =>
    rcases foldl_max_mem xs x with h1 | h1
    · simp [pyMax, h1]
    · simp [pyMax]
      right
      exact h1

/-- Python `max` of a list bounds every element. -/
theorem le_pyMax (l : List ℚ) (x : ℚ) (hx : x ∈ l) : x ≤ pyMax l := by
  match l, hx with
  | y :: ys, hx =>
    rcases List.mem_cons.mp hx with h | h
    · subst h; exact le_foldl_max ys x
    · exact mem_le_foldl_max ys y x h

/-! ## Claim C1 (end-to-end scenario) -/

/-- C1: for the input stream of records `(/a, 0.1)`, `(/b, 0.2)`, `(/a, 0.3)`
with `reportSize = 10`, the aggregator followed by the statistics calculator
and rank selector yields exactly two rows, `/a` before `/b`, with `/a` having
count 2, timeSum 0.4, timeMaximum 0.3, timeMedian 0.2 and `/b` having count 1,
timeSum 0.2, timeMaximum 0.2, timeMedian 0.2 (all over exact rationals). -/
theorem end_to_end_scenario :
    (count_stats (analyze_log [⟨"/a", 1/10⟩, ⟨"/b", 2/10⟩, ⟨"/a", 3/10⟩]).1
        (analyze_log [⟨"/a", 1/10⟩, ⟨"/b", 2/10⟩, ⟨"/a", 3/10⟩]).2 10).map
        (fun s => (s.url, s.count, s.time_sum, s.time_max, s.time_med))
      = [("/a", 2, 4/10, 3/10, 2/10), ("/b", 1, 2/10, 2/10, 2/10)] := by
  with_unfolding_all rfl

/-! ## Claim C6 (resource and elapsed-time fields of a line) -/

/-- C6 counterexample: on a well-formed line of the documented log format
(note the double space after the first field, exactly as in the format comment
at the top of the source), the extractor returns the element at index 7 of
`line.split(" ")` — the request target — while the 8th whitespace-delimited
token of that line is the protocol field `HTTP/1.1"`; the two differ.  So the
resource is not the 8th whitespace-delimited token. -/
theorem resource_token_counterexample :
    parse_line "1.2.3.4  - - [29/Jun/2017:03:50:22 +0300] \"GET /api/v2/banner/25019354 HTTP/1.1\" 200 927 \"-\" \"-\" \"-\" \"-\" \"-\" 0.390"
      = .ok ⟨"/api/v2/banner/25019354", 39/100⟩
    ∧ (wsTokens "1.2.3.4  - - [29/Jun/2017:03:50:22 +0300] \"GET /api/v2/banner/25019354 HTTP/1.1\" 200 927 \"-\" \"-\" \"-\" \"-\" \"-\" 0.390")[7]?
      = some "HTTP/1.1\""
    ∧ ("/api/v2/banner/25019354" : String) ≠ "HTTP/1.1\"" :=
  ⟨by with_unfolding_all rfl, by with_unfolding_all rfl, by decide⟩

/-- C6 amended: whenever the extractor succeeds on a line, the resource it
returns is the element at index 7 of the line split on single spaces (empty
fields from consecutive spaces counted), and the elapsed time is the trailing
such field parsed as a floating-point number. -/
theorem resource_field_amended (line : String) (url : String) (t : ℚ)
    (h : parse_line line = .ok ⟨url, t⟩) :
    (log_row line)[7]? = some url
    ∧ ∃ lastField, (log_row line).getLast? = some lastField
        ∧ pyFloat lastField = some t := by
  unfold parse_line at h
  split at h
  next => exact absurd h (by simp)
  next request_url h7 =>
    split at h
    next => exact absurd h (by simp)
    next lastField hl =>
      split at h
      next => exact absurd h (by simp)
      next q hf =>
        simp only [Except.ok.injEq, RawRecord.mk.injEq] at h
        obtain ⟨h1, h2⟩ := h
        subst h1
        subst h2
        exact ⟨h7, lastField, hl, hf⟩

/-- C6 amended, witness: the amended statement evaluated on a concrete line
with no consecutive spaces. -/
theorem resource_field_amended_witness :
    (log_row "a b c d e f g h 0.5")[7]? = some "h"
    ∧ ∃ lastField, (log_row "a b c d e f g h 0.5").getLast? = some lastField
        ∧ pyFloat lastField = some (1/2) :=
  resource_field_amended "a b c d e f g h 0.5" "h" (1/2)
    (by with_unfolding_all rfl)

/-! ## Claim C7 (malformed-line handling) -/

/-- C7 counterexample: a line whose 8th single-space field is empty (two
consecutive spaces before the request-target position) is not rejected: the
extractor silently yields a record whose resource is the empty string.  There
is no `MalformedRecordError` anywhere in the code and no emptiness check on
the resource field. -/
theorem empty_resource_counterexample :
    parse_line "a b c d e f g  h 0.5" = .ok ⟨"", 1/2⟩ := by
  with_unfolding_all rfl

/-- C7 amended: a line with fewer than 8 single-space fields fails with
`IndexError`, and a line with at least 8 fields whose trailing field is not
numeric fails with `ValueError` — but an empty resource field is not detected
(see `empty_resource_counterexample`). -/
theorem malformed_line_amended (line : String) :
    ((log_row line).length < 8 → parse_line line = .error .indexError)
    ∧ (∀ lastField, 8 ≤ (log_row line).length →
        (log_row line).getLast? = some lastField → pyFloat lastField = none →
        parse_line line = .error .valueError) := by
  constructor
  · intro hlen
    unfold parse_line
    rw [List.getElem?_eq_none (show (log_row line).length ≤ 7 by omega)]
  · intro lastField hlen hl hf
    unfold parse_line
    rw [List.getElem?_eq_getElem (show 7 < (log_row line).length by omega)]
    simp only [hl, hf]

/-- C7 amended, witness: a 2-field line raises `IndexError`; an 9-field line
with non-numeric trailing field raises `ValueError`. -/
theorem malformed_line_amended_witness :
    parse_line "a b" = .error .indexError
    ∧ parse_line "a b c d e f g h x" = .error .valueError :=
  ⟨(malformed_line_amended "a b").1 (by decide),
   (malformed_line_amended "a b c d e f g h x").2 "x" (by decide) rfl rfl⟩

/-! ## Claim C8 (end-of-source behaviour) -/

/-- C8: the record sequence never terminates normally.  On a source whose
single line is well formed, the generator yields the record and then raises
`RuntimeError` (the `StopIteration` of `next(file)` at end of file, converted
by PEP 479); in general the terminating outcome is always an exception, never
clean exhaustion, contradicting both the spec and the evident intent of the
`while True` / `next` idiom. -/
theorem eof_runtime_error :
    log_parser_run ["a b c d e f g h 0.5"] = ([⟨"h", 1/2⟩], some .runtimeError)
    ∧ ∀ lines, ∃ e, (log_parser_run lines).2 = some e := by
  refine ⟨by with_unfolding_all rfl, ?_⟩
  intro lines
  induction lines with
  | nil => exact ⟨.runtimeError, rfl⟩
  | cons line rest ih =>
    cases h : parse_line line with
    | error e => exact ⟨e, by simp [log_parser_run, h]⟩
    | ok r =>
      obtain ⟨e, he⟩ := ih
      exact ⟨e, by simp [log_parser_run, h, he]⟩

/-! ## Claim C9 (empty input) -/

/-- C9 counterexample: on zero records the aggregator does not fail at all (no
`EmptyInputError` exists in the code): it returns zero totals and an empty
map, and the downstream pipeline produces an empty report. -/
theorem empty_input_counterexample :
    analyze_log [] = (⟨0, 0⟩, []) ∧ count_stats ⟨0, 0⟩ [] 10 = [] :=
  ⟨rfl, rfl⟩

/-- C9 amended: on zero records the aggregator returns
`totalRequestCount = 0`, `totalElapsedSeconds = 0` and an empty aggregate map,
without raising, and the pipeline deterministically yields an empty report for
every report size. -/
theorem empty_input_amended (N : ℕ) :
    analyze_log [] = (⟨0, 0⟩, [])
    ∧ count_stats (analyze_log []).1 (analyze_log []).2 N = [] := by
  refine ⟨rfl, ?_⟩
  simp [count_stats, rank_select, analyze_log]

/-! ## Claim C2 (statistics formulas) -/

/-- C2: for every per-resource aggregate satisfying the data-model invariant
(`count = length of samples`, at least one sample) and every totals value, the
statistics calculator returns exactly: timeSum = the sum of the samples;
timeAverage = timeSum / count; timeMaximum = the maximum of the samples;
timeMedian = the standard median (middle value of the sorted samples for odd
count, mean of the two middle sorted values for even count); countShare =
count * totalRequestCount / 100 (the literal formula of the source); and
timeShare = timeSum * totalElapsedSeconds / 100. -/
theorem count_stats_formulas (total_requests : ℕ) (total_time : ℚ)
    (url : String) (agg : UrlAgg) (s : Stat)
    (hs : s = statEntry total_requests total_time url agg)
    (hcount : agg.count = agg.request_times.length)
    (hne : agg.request_times ≠ []) :
    s.time_sum = agg.request_times.sum
    ∧ s.time_avg = s.time_sum / (agg.count : ℚ)
    ∧ s.time_max ∈ agg.request_times
    ∧ (∀ x ∈ agg.request_times, x ≤ s.time_max)
    ∧ (∃ sortedTimes, sortedTimes ~ agg.request_times
        ∧ sortedTimes.Sorted (· ≤ ·)
        ∧ s.time_med = if agg.request_times.length % 2 = 1
            then sortedTimes.getD (agg.request_times.length / 2) 0
            else (sortedTimes.getD (agg.request_times.length / 2 - 1) 0
                + sortedTimes.getD (agg.request_times.length / 2) 0) / 2)
    ∧ s.count_perc = (agg.count : ℚ) * (total_requests : ℚ) / 100
    ∧ s.time_perc = s.time_sum * total_time / 100 := by
  subst hs
  refine ⟨pySum_eq_sum _, ?_, pyMax_mem _ hne, fun x hx => le_pyMax _ x hx,
    ?_, rfl, rfl⟩
  · show pySum agg.request_times / (agg.request_times.length : ℚ)
      = pySum agg.request_times / (agg.count : ℚ)
    rw [hcount]
  · exact ⟨agg.request_times.insertionSort (· ≤ ·),
      List.perm_insertionSort _ _,
      List.sorted_insertionSort _ _, rfl⟩

/-- C2 witness: the formulas evaluated on the aggregate of two samples
`[0.1, 0.3]` with totals (5 requests, 0.7 s). -/
theorem count_stats_formulas_witness :
    (statEntry 5 (7/10) "/x" ⟨2, [1/10, 3/10]⟩).time_sum
      = ([1/10, 3/10] : List ℚ).sum
    ∧ (statEntry 5 (7/10) "/x" ⟨2, [1/10, 3/10]⟩).count_perc
      = ((2 : ℕ) : ℚ) * ((5 : ℕ) : ℚ) / 100 :=
  ⟨(count_stats_formulas 5 (7/10) "/x" ⟨2, [1/10, 3/10]⟩ _ rfl rfl
      (List.cons_ne_nil _ _)).1,
   (count_stats_formulas 5 (7/10) "/x" ⟨2, [1/10, 3/10]⟩ _ rfl rfl
      (List.cons_ne_nil _ _)).2.2.2.2.2.1⟩

/-! ## Claim C3 (top-N selection) -/

/-- C3: for every statistics list and positive bound `N`, the rank selector
returns a list sorted by count descending of length at most `N`; it never
omits an element whose count strictly exceeds that of an included element; and
when the input is shorter than `N` it returns all of the input (as a
permutation — the sorted rearrangement — with no padding and no error). -/
theorem rank_select_topN (stats : List Stat) (N : ℕ) (hN : 0 < N) :
    (rank_select stats N).length ≤ N
    ∧ (rank_select stats N).Sorted countGe
    ∧ (∀ s ∈ stats, ∀ t ∈ rank_select stats N, t.count < s.count →
        s ∈ rank_select stats N)
    ∧ (stats.length < N → rank_select stats N ~ stats) := by
  refine ⟨?_, ?_, ?_, ?_⟩
  · rw [rank_select, List.length_take]
    exact min_le_left _ _
  · exact List.Pairwise.sublist (List.take_sublist _ _)
      (List.sorted_insertionSort countGe stats)
  · intro s hs t ht hlt
    by_contra hnot
    have hmem : s ∈ stats.insertionSort countGe :=
      (List.mem_insertionSort countGe).mpr hs
    have hsplit := List.take_append_drop N (stats.insertionSort countGe)
    have hdrop : s ∈ (stats.insertionSort countGe).drop N := by
      rcases List.mem_append.mp (by rw [hsplit]; exact hmem) with h | h
      · exact absurd h hnot
      · exact h
    have hrel : countGe t s :=
      (List.sorted_insertionSort countGe stats).rel_of_mem_take_of_mem_drop
        ht hdrop
    have : s.count ≤ t.count := hrel
    omega
  · intro hlen
    rw [rank_select, List.take_of_length_le
      (by rw [List.length_insertionSort]; omega)]
    exact List.perm_insertionSort countGe stats

/-- C3 witness: selection out of a single-row list with bound 2 returns a
permutation of the input. -/
theorem rank_select_topN_witness :
    (rank_select [⟨"/a", 3, 0, 0, 0, 0, 0, 0⟩] 2).length ≤ 2
    ∧ rank_select [⟨"/a", 3, 0, 0, 0, 0, 0, 0⟩] 2 ~ [⟨"/a", 3, 0, 0, 0, 0, 0, 0⟩] :=
  ⟨(rank_select_topN [⟨"/a", 3, 0, 0, 0, 0, 0, 0⟩] 2 (by decide)).1,
   (rank_select_topN [⟨"/a", 3, 0, 0, 0, 0, 0, 0⟩] 2 (by decide)).2.2.2 (by decide)⟩

/-! ## Claim C4 (count and time conservation) -/

theorem sumCounts_bump (m : UrlMap) (u : String) (t : ℚ) (v : UrlAgg)
    (h : lookupUrl m u = some v) :
    ((bumpUrl m u t).map (fun p => p.2.count)).sum
      = (m.map (fun p => p.2.count)).sum + 1 := by
  induction m with
  | nil => exact absurd h (by simp [lookupUrl])
  | cons kw rest ih =>
    obtain ⟨k, w⟩ := kw
    by_cases hk : k = u
    · simp [bumpUrl, hk]
      omega
    · rw [lookupUrl] at h
      rw [if_neg hk] at h
      simp [bumpUrl, hk, ih h]
      omega

theorem sumTimes_bump (m : UrlMap) (u : String) (t : ℚ) (v : UrlAgg)
    (h : lookupUrl m u = some v) :
    ((bumpUrl m u t).map (fun p => p.2.request_times.sum)).sum
      = (m.map (fun p => p.2.request_times.sum)).sum + t := by
  induction m with
  | nil => exact absurd h (by simp [lookupUrl])
  | cons kw rest ih =>
    obtain ⟨k, w⟩ := kw
    by_cases hk : k = u
    · simp [bumpUrl, hk]
      ring
    · rw [lookupUrl] at h
      rw [if_neg hk] at h
      simp [bumpUrl, hk, ih h]
      ring

theorem analyzeStep_fst (st : Totals × UrlMap) (r : RawRecord) :
    (analyzeStep st r).1 = ⟨st.1.total_requests + 1, st.1.total_time + r.time⟩ := by
  rw [analyzeStep]
  split <;> rfl

theorem conservation_aux (recs : List RawRecord) :
    ∀ st : Totals × UrlMap,
    (st.2.map (fun p => p.2.count)).sum = st.1.total_requests →
    (st.2.map (fun p => p.2.request_times.sum)).sum = st.1.total_time →
    (((recs.foldl analyzeStep st).2.map (fun p => p.2.count)).sum
        = (recs.foldl analyzeStep st).1.total_requests
      ∧ ((recs.foldl analyzeStep st).2.map
          (fun p => p.2.request_times.sum)).sum
        = (recs.foldl analyzeStep st).1.total_time) := by
  induction recs with
  | nil => intro st h1 h2; exact ⟨h1, h2⟩
  | cons r rest ih =>
    intro st h1 h2
    rw [List.foldl_cons]
    apply ih
    · rw [analyzeStep_fst]
      show ((analyzeStep st r).2.map (fun p => p.2.count)).sum
        = st.1.total_requests + 1
      rw [analyzeStep]
      cases hl : lookupUrl st.2 r.url with
      | none => simp [hl, h1]
      | some v => simp [hl, sumCounts_bump st.2 r.url r.time v hl, h1]
    · rw [analyzeStep_fst]
      show ((analyzeStep st r).2.map (fun p => p.2.request_times.sum)).sum
        = st.1.total_time + r.time
      rw [analyzeStep]
      cases hl : lookupUrl st.2 r.url with
      | none => simp [hl, h2]
      | some v => simp [hl, sumTimes_bump st.2 r.url r.time v hl, h2]

/-- C4: after the aggregator consumes any finite record sequence, the counts
of the per-URL entries sum to `totalRequestCount` and the per-URL sample sums
sum to `totalElapsedSeconds`, exactly, over exact arithmetic. -/
theorem aggregate_conservation (recs : List RawRecord) :
    ((analyze_log recs).2.map (fun p => p.2.count)).sum
      = (analyze_log recs).1.total_requests
    ∧ ((analyze_log recs).2.map (fun p => p.2.request_times.sum)).sum
      = (analyze_log recs).1.total_time :=
  conservation_aux recs (⟨0, 0⟩, []) rfl rfl

/-! ## Claim C5 (count equals number of samples; creation and update) -/

theorem lookup_bump_self (m : UrlMap) (u : String) (t : ℚ) (v : UrlAgg)
    (h : lookupUrl m u = some v) :
    lookupUrl (bumpUrl m u t) u = some ⟨v.count + 1, v.request_times ++ [t]⟩ := by
  induction m with
  | nil => exact absurd h (by simp [lookupUrl])
  | cons kw rest ih =>
    obtain ⟨k, w⟩ := kw
    by_cases hk : k = u
    · rw [lookupUrl, if_pos hk] at h
      injection h with h
      subst h
      simp [bumpUrl, lookupUrl, hk]
    · rw [lookupUrl, if_neg hk] at h
      simp [bumpUrl, lookupUrl, hk, ih h]

theorem lookup_append_self (m : UrlMap) (u : String) (v : UrlAgg)
    (h : lookupUrl m u = none) :
    lookupUrl (m ++ [(u, v)]) u = some v := by
  induction m with
  | nil => simp [lookupUrl]
  | cons kw rest ih =>
    obtain ⟨k, w⟩ := kw
    by_cases hk : k = u
    · rw [lookupUrl, if_pos hk] at h
      exact absurd h (by simp)
    · rw [lookupUrl, if_neg hk] at h
      simpa [lookupUrl, hk] using ih h

theorem inv_bump (m : UrlMap) (u : String) (t : ℚ)
    (h : ∀ p ∈ m, p.2.count = p.2.request_times.length) :
    ∀ p ∈ bumpUrl m u t, p.2.count = p.2.request_times.length := by
  induction m with
  | nil => intro p hp; cases hp
  | cons kw rest ih =>
    obtain ⟨k, w⟩ := kw
    intro p hp
    by_cases hk : k = u
    · rw [bumpUrl, if_pos hk] at hp
      rcases List.mem_cons.mp hp with h' | h'
      · subst h'
        have := h (k, w) (List.mem_cons_self _ _)
        simp at this ⊢
        omega
      · exact h p (List.mem_cons_of_mem _ h')
    · rw [bumpUrl, if_neg hk] at hp
      rcases List.mem_cons.mp hp with h' | h'
      · subst h'
        exact h (k, w) (List.mem_cons_self _ _)
      · exact ih (fun q hq => h q (List.mem_cons_of_mem _ hq)) p h'

theorem inv_aux (recs : List RawRecord) :
    ∀ st : Totals × UrlMap,
    (∀ p ∈ st.2, p.2.count = p.2.request_times.length) →
    ∀ p ∈ (recs.foldl analyzeStep st).2, p.2.count = p.2.request_times.length := by
  induction recs with
  | nil => intro st h; exact h
  | cons r rest ih =>
    intro st h
    rw [List.foldl_cons]
    apply ih
    show ∀ p ∈ (analyzeStep st r).2, p.2.count = p.2.request_times.length
    rw [analyzeStep]
    cases hl : lookupUrl st.2 r.url with
    | none =>
      simp only [hl, Option.isSome_none, Bool.false_eq_true, if_false]
      intro p hp
      rcases List.mem_append.mp hp with h' | h'
      · exact h p h'
      · rcases List.mem_singleton.mp h' with h''
        subst h''
        rfl
    | some v =>
      simp only [hl, Option.isSome_some, if_true]
      exact inv_bump st.2 r.url r.time h

/-- C5: every entry of the aggregate map satisfies
`count = length(elapsedSamples)` after the aggregator has processed any
record sequence (hence after every step, taking the sequence to be any
prefix); moreover one step on a fresh URL creates the entry
`{count = 1, samples = [t]}`, and one step on a known URL bumps its count by
one and appends exactly the one new sample. -/
theorem aggregate_count_length_invariant :
    (∀ recs : List RawRecord, ∀ p ∈ (analyze_log recs).2,
      p.2.count = p.2.request_times.length)
    ∧ (∀ (st : Totals × UrlMap) (r : RawRecord),
        (lookupUrl st.2 r.url = none →
          lookupUrl (analyzeStep st r).2 r.url = some ⟨1, [r.time]⟩)
        ∧ (∀ v, lookupUrl st.2 r.url = some v →
            lookupUrl (analyzeStep st r).2 r.url
              = some ⟨v.count + 1, v.request_times ++ [r.time]⟩)) := by
  constructor
  · intro recs
    exact inv_aux recs (⟨0, 0⟩, []) (by intro p hp; cases hp)
  · intro st r
    constructor
    · intro hl
      rw [analyzeStep]
      simp only [hl, Option.isSome_none, Bool.false_eq_true, if_false]
      exact lookup_append_self st.2 r.url ⟨1, [r.time]⟩ hl
    · intro v hl
      rw [analyzeStep]
      simp only [hl, Option.isSome_some, if_true]
      exact lookup_bump_self st.2 r.url r.time v hl

/-- C5 witness: the invariant and the creation case evaluated on the
one-record stream `(/a, 1)`. -/
theorem aggregate_count_length_invariant_witness :
    ((("/a", ⟨1, [1]⟩) : String × UrlAgg).2.count
      = (("/a", ⟨1, [1]⟩) : String × UrlAgg).2.request_times.length)
    ∧ lookupUrl (analyzeStep (⟨0, 0⟩, []) ⟨"/a", 1⟩).2 "/a" = some ⟨1, [1]⟩ :=
  ⟨aggregate_count_length_invariant.1 [⟨"/a", 1⟩] ("/a", ⟨1, [1]⟩)
      (by with_unfolding_all decide),
   (aggregate_count_length_invariant.2 (⟨0, 0⟩, []) ⟨"/a", 1⟩).1 rfl⟩

/-! ## Claim C10: helper lemmas about dict key order -/

theorem lookup_isSome_iff (m : UrlMap) (u : String) :
    (lookupUrl m u).isSome = true ↔ u ∈ keys m := by
  induction m with
  | nil => simp [lookupUrl, keys]
  | cons kw rest ih =>
    obtain ⟨k, w⟩ := kw
    by_cases hk : k = u
    · subst hk
      simp [lookupUrl, keys]
    · simp [lookupUrl, keys, hk, ih]
      exact fun h => absurd h.symm hk

theorem bump_keys (m : UrlMap) (u : String) (t : ℚ) :
    keys (bumpUrl m u t) = keys m := by
  induction m with
  | nil => rfl
  | cons kw rest ih =>
    obtain ⟨k, w⟩ := kw
    by_cases hk : k = u
    · simp [bumpUrl, keys, hk]
    · simp only [bumpUrl, if_neg hk]
      show k :: keys (bumpUrl rest u t) = k :: keys rest
      rw [ih]

theorem append_keys (m : UrlMap) (u : String) (v : UrlAgg) :
    keys (m ++ [(u, v)]) = keys m ++ [u] := by
  simp [keys]

theorem step_keys (st : Totals × UrlMap) (r : RawRecord) :
    keys (analyzeStep st r).2
      = if r.url ∈ keys st.2 then keys st.2 else keys st.2 ++ [r.url] := by
  rw [analyzeStep]
  by_cases h : r.url ∈ keys st.2
  · rw [if_pos ((lookup_isSome_iff st.2 r.url).mpr h)]
    show keys (bumpUrl st.2 r.url r.time) = _
    rw [bump_keys, if_pos h]
  · rw [if_neg (by rw [lookup_isSome_iff]; exact h)]
    show keys (st.2 ++ [(r.url, ⟨1, [r.time]⟩)]) = _
    rw [append_keys, if_neg h]

theorem insKeys_cons (acc : List String) (u : String) (us : List String) :
    insKeys acc (u :: us) = insKeys (if u ∈ acc then acc else acc ++ [u]) us :=
  rfl

theorem fold_keys (recs : List RawRecord) :
    ∀ st : Totals × UrlMap,
    keys (recs.foldl analyzeStep st).2 = insKeys (keys st.2) (recs.map RawRecord.url) := by
  induction recs with
  | nil => intro st; rfl
  | cons r rest ih =>
    intro st
    rw [List.foldl_cons, List.map_cons, insKeys_cons, ← step_keys st r]
    exact ih (analyzeStep st r)

theorem analyze_keys (recs : List RawRecord) :
    keys (analyze_log recs).2 = insKeys [] (recs.map RawRecord.url) :=
  fold_keys recs (⟨0, 0⟩, [])

theorem insKeys_ext (us : List String) :
    ∀ acc, ∃ tl, insKeys acc us = acc ++ tl := by
  induction us with
  | nil => intro acc; exact ⟨[], by simp [insKeys]⟩
  | cons u rest ih =>
    intro acc
    rw [insKeys_cons]
    by_cases h : u ∈ acc
    · rw [if_pos h]; exact ih acc
    · rw [if_neg h]
      obtain ⟨tl, htl⟩ := ih (acc ++ [u])
      exact ⟨[u] ++ tl, by rw [htl, List.append_assoc]⟩

theorem insKeys_mem (us : List String) :
    ∀ acc u, u ∈ acc ∨ u ∈ us → u ∈ insKeys acc us := by
  induction us with
  | nil => intro acc u h; rcases h with h | h; exact h; cases h
  | cons x rest ih =>
    intro acc u h
    rw [insKeys_cons]
    apply ih
    by_cases hx : u = x
    · subst hx
      left
      by_cases hm : u ∈ acc
      · rw [if_pos hm]; exact hm
      · rw [if_neg hm]; exact List.mem_append.mpr (Or.inr (List.mem_singleton.mpr rfl))
    · rcases h with h | h
      · left
        split
        · exact h
        · exact List.mem_append.mpr (Or.inl h)
      · right
        rcases List.mem_cons.mp h with h' | h'
        · exact absurd h' hx
        · exact h'

theorem insKeys_mem_inv (us : List String) :
    ∀ acc u, u ∈ insKeys acc us → u ∈ acc ∨ u ∈ us := by
  induction us with
  | nil => intro acc u h; exact Or.inl h
  | cons x rest ih =>
    intro acc u h
    rw [insKeys_cons] at h
    rcases ih _ u h with h' | h'
    · by_cases hx : x ∈ acc
      · rw [if_pos hx] at h'
        exact Or.inl h'
      · rw [if_neg hx] at h'
        rcases List.mem_append.mp h' with h'' | h''
        · exact Or.inl h''
        · exact Or.inr (List.mem_cons.mpr (Or.inl (List.mem_singleton.mp h'')))
    · exact Or.inr (List.mem_cons_of_mem x h')

theorem insKeys_nodup (us : List String) :
    ∀ acc, acc.Nodup → (insKeys acc us).Nodup := by
  induction us with
  | nil => intro acc h; exact h
  | cons x rest ih =>
    intro acc h
    rw [insKeys_cons]
    apply ih
    by_cases hx : x ∈ acc
    · rw [if_pos hx]; exact h
    · rw [if_neg hx]
      simp [List.nodup_append, h, hx]

/-! ## Claim C10: helper lemmas about first-occurrence indices -/

theorem idx_cons {α : Type} [DecidableEq α] (a x : α) (xs : List α) :
    idx a (x :: xs) = if x = a then 0 else idx a xs + 1 :=
  rfl

theorem idx_append_left {α : Type} [DecidableEq α] (a : α) :
    ∀ l1 l2 : List α, a ∈ l1 → idx a (l1 ++ l2) = idx a l1 := by
  intro l1
  induction l1 with
  | nil => intro l2 h; cases h
  | cons x xs ih =>
    intro l2 h
    by_cases hx : x = a
    · simp [idx_cons, hx]
    · rcases List.mem_cons.mp h with h' | h'
      · exact absurd h'.symm hx
      · simp [idx_cons, hx, ih l2 h']

theorem idx_append_right {α : Type} [DecidableEq α] (a : α) :
    ∀ l1 l2 : List α, a ∉ l1 → idx a (l1 ++ l2) = l1.length + idx a l2 := by
  intro l1
  induction l1 with
  | nil => intro l2 _; simp
  | cons x xs ih =>
    intro l2 h
    have hx : x ≠ a := fun he => h (List.mem_cons.mpr (Or.inl he.symm))
    have ha : a ∉ xs := fun he => h (List.mem_cons_of_mem x he)
    simp [idx_cons, hx, ih l2 ha]
    omega

theorem idx_lt_length {α : Type} [DecidableEq α] (a : α) :
    ∀ l : List α, a ∈ l → idx a l < l.length := by
  intro l
  induction l with
  | nil => intro h; cases h
  | cons x xs ih =>
    intro h
    by_cases hx : x = a
    · simp [idx_cons, hx]
    · rcases List.mem_cons.mp h with h' | h'
      · exact absurd h'.symm hx
      · simp [idx_cons, hx]
        exact ih h'

theorem idx_take {α : Type} [DecidableEq α] (a : α) :
    ∀ (l : List α) (n : ℕ), a ∈ l.take n → idx a (l.take n) = idx a l := by
  intro l
  induction l with
  | nil => intro n h; simp at h
  | cons x xs ih =>
    intro n h
    match n with
    | 0 => simp at h
    | n + 1 =>
      rw [show List.take (n + 1) (x :: xs) = x :: List.take n xs from rfl] at h ⊢
      by_cases hx : x = a
      · simp [idx_cons, hx]
      · rcases List.mem_cons.mp h with h' | h'
        · exact absurd h'.symm hx
        · simp [idx_cons, hx, ih n h']

theorem idx_map_of_nodup {α β : Type} [DecidableEq α] [DecidableEq β]
    (f : α → β) :
    ∀ l : List α, (l.map f).Nodup → ∀ a ∈ l, idx a l = idx (f a) (l.map f) := by
  intro l
  induction l with
  | nil => intro _ a ha; cases ha
  | cons x xs ih =>
    intro hnd a ha
    rw [List.map_cons] at hnd
    have hnd' := hnd
    rw [List.nodup_cons] at hnd'
    by_cases hx : x = a
    · simp [idx_cons, hx]
    · rcases List.mem_cons.mp ha with h' | h'
      · exact absurd h'.symm hx
      · have hfx : f x ≠ f a := by
          intro he
          exact hnd'.1 (he ▸ List.mem_map_of_mem f h')
        simp [idx_cons, hx, hfx, List.map_cons]
        exact ih hnd'.2 a h'

/-- Once `u1` is already a key and `u2` is not, any further observations keep
`u1` strictly before `u2` in the key list. -/
theorem idx_insKeys_of_mem_acc (us : List String) (acc : List String)
    (u1 u2 : String) (h1 : u1 ∈ acc) (h2 : u2 ∉ acc) :
    idx u1 (insKeys acc us) < idx u2 (insKeys acc us) := by
  obtain ⟨tl, htl⟩ := insKeys_ext us acc
  rw [htl]
  rw [idx_append_left u1 acc tl h1, idx_append_right u2 acc tl h2]
  have := idx_lt_length u1 acc h1
  omega

/-- First observation order is preserved by the key-accumulation fold: if
`u1` first occurs strictly before `u2` in the observation stream and neither
is a key yet, then `u1` ends up strictly before `u2` in the key list. -/
theorem insKeys_first_order (us : List String) :
    ∀ acc u1 u2, u1 ∉ acc → u2 ∉ acc →
    idx u1 us < idx u2 us → u1 ∈ us → u2 ∈ us →
    idx u1 (insKeys acc us) < idx u2 (insKeys acc us) := by
  induction us with
  | nil => intro acc u1 u2 _ _ _ h1 _; cases h1
  | cons x rest ih =>
    intro acc u1 u2 hn1 hn2 hlt h1 h2
    have hne : u1 ≠ u2 := by
      intro he
      rw [he] at hlt
      omega
    rw [insKeys_cons]
    by_cases hx1 : x = u1
    · subst hx1
      rw [if_neg hn1]
      have h2r : u2 ∈ rest := by
        rcases List.mem_cons.mp h2 with h' | h'
        · exact absurd h'.symm hne
        · exact h'
      apply idx_insKeys_of_mem_acc
      · exact List.mem_append.mpr (Or.inr (List.mem_singleton.mpr rfl))
      · intro hmem
        rcases List.mem_append.mp hmem with h' | h'
        · exact hn2 h'
        · exact hne (List.mem_singleton.mp h').symm
    · by_cases hx2 : x = u2
      · subst hx2
        rw [idx_cons u1 x rest, if_neg hx1, idx_cons x x rest, if_pos rfl] at hlt
        omega
      · have h1r : u1 ∈ rest := by
          rcases List.mem_cons.mp h1 with h' | h'
          · exact absurd h'.symm hx1
          · exact h'
        have h2r : u2 ∈ rest := by
          rcases List.mem_cons.mp h2 with h' | h'
          · exact absurd h'.symm hx2
          · exact h'
        have hltr : idx u1 rest < idx u2 rest := by
          rw [idx_cons, if_neg hx1, idx_cons, if_neg hx2] at hlt
          omega
        split
        · exact ih acc u1 u2 hn1 hn2 hltr h1r h2r
        · apply ih _ u1 u2 _ _ hltr h1r h2r
          · intro hmem
            rcases List.mem_append.mp hmem with h' | h'
            · exact hn1 h'
            · exact hx1 (List.mem_singleton.mp h').symm
          · intro hmem
            rcases List.mem_append.mp hmem with h' | h'
            · exact hn2 h'
            · exact hx2 (List.mem_singleton.mp h').symm

/-! ## Claim C10: pair sublists versus first-occurrence indices -/

theorem pair_sublist_of_idx {α : Type} [DecidableEq α] (a b : α) :
    ∀ l : List α, a ∈ l → b ∈ l → idx a l < idx b l → [a, b] <+ l := by
  intro l
  induction l with
  | nil => intro ha _ _; cases ha
  | cons x xs ih =>
    intro ha hb hlt
    have hne : a ≠ b := by
      intro he
      rw [he] at hlt
      omega
    by_cases hxa : x = a
    · subst hxa
      have hbxs : b ∈ xs := by
        rcases List.mem_cons.mp hb with h' | h'
        · exact absurd h'.symm hne
        · exact h'
      exact (List.singleton_sublist.mpr hbxs).cons₂ x
    · by_cases hxb : x = b
      · rw [idx_cons b x xs, if_pos hxb] at hlt
        omega
      · have haxs : a ∈ xs := by
          rcases List.mem_cons.mp ha with h' | h'
          · exact absurd h'.symm hxa
          · exact h'
        have hbxs : b ∈ xs := by
          rcases List.mem_cons.mp hb with h' | h'
          · exact absurd h'.symm hxb
          · exact h'
        have hlt' : idx a xs < idx b xs := by
          rw [idx_cons a x xs, if_neg hxa, idx_cons b x xs, if_neg hxb] at hlt
          omega
        exact (ih haxs hbxs hlt').cons x

theorem idx_lt_of_pair_sublist_aux {α : Type} [DecidableEq α]
    {c l : List α} (hs : c <+ l) :
    l.Nodup → ∀ a b : α, c = [a, b] → idx a l < idx b l := by
  induction hs with
  | slnil => intro _ a b hc; cases hc
  | cons x h ih =>
    intro hnd a b hc
    subst hc
    rw [List.nodup_cons] at hnd
    have haxs := h.subset (List.mem_cons_self a [b])
    have hbxs := h.subset (List.mem_cons_of_mem a (List.mem_singleton.mpr rfl))
    have hxa : x ≠ a := fun he => hnd.1 (he ▸ haxs)
    have hxb : x ≠ b := fun he => hnd.1 (he ▸ hbxs)
    rw [idx_cons, if_neg hxa, idx_cons, if_neg hxb]
    have := ih hnd.2 a b rfl
    omega
  | cons₂ x h ih =>
    intro hnd a b hc
    injection hc with h1 h2
    subst h1
    subst h2
    rw [List.nodup_cons] at hnd
    have hbxs := List.singleton_sublist.mp h
    have hxb : x ≠ b := fun he => hnd.1 (he ▸ hbxs)
    rw [idx_cons, if_pos rfl, idx_cons, if_neg hxb]
    omega

theorem idx_lt_of_pair_sublist {α : Type} [DecidableEq α] (a b : α)
    (l : List α) (hnd : l.Nodup) (hs : [a, b] <+ l) : idx a l < idx b l :=
  idx_lt_of_pair_sublist_aux hs hnd a b rfl

/-! ## Claim C10 (stable tie-break of the rank selector) -/

/-- C10: on any input stream, among report rows with equal count the rank
selector keeps the order in which the resources were first observed in the
stream: the sort by count descending is stable and the aggregate map is
insertion-ordered, so if `s1.url` was first observed strictly before `s2.url`
and both rows appear in the final report, `s1` appears strictly before
`s2`. -/
theorem rank_tie_break_stable (recs : List RawRecord) (N : ℕ) (s1 s2 : Stat)
    (h1 : s1 ∈ count_stats (analyze_log recs).1 (analyze_log recs).2 N)
    (h2 : s2 ∈ count_stats (analyze_log recs).1 (analyze_log recs).2 N)
    (hcount : s1.count = s2.count)
    (hfirst : idx s1.url (recs.map RawRecord.url)
      < idx s2.url (recs.map RawRecord.url)) :
    idx s1 (count_stats (analyze_log recs).1 (analyze_log recs).2 N)
      < idx s2 (count_stats (analyze_log recs).1 (analyze_log recs).2 N) := by
  have hout : count_stats (analyze_log recs).1 (analyze_log recs).2 N
      = (((analyze_log recs).2.map fun p =>
          statEntry (analyze_log recs).1.total_requests
            (analyze_log recs).1.total_time p.1 p.2).insertionSort
          countGe).take N := rfl
  set report := ((analyze_log recs).2.map fun p =>
    statEntry (analyze_log recs).1.total_requests
      (analyze_log recs).1.total_time p.1 p.2) with hreport
  set srt := report.insertionSort countGe with hsrt
  rw [hout] at h1 h2 ⊢
  -- the url column of the report is the key list of the aggregate map
  have hmapurl : report.map Stat.url = keys (analyze_log recs).2 := by
    rw [hreport, List.map_map]
    rfl
  have hkeys : keys (analyze_log recs).2 = insKeys [] (recs.map RawRecord.url) :=
    analyze_keys recs
  have hnodup_keys : (report.map Stat.url).Nodup := by
    rw [hmapurl, hkeys]
    exact insKeys_nodup _ [] List.nodup_nil
  have hnodup_report : report.Nodup := List.Nodup.of_map Stat.url hnodup_keys
  -- memberships
  have h1s : s1 ∈ srt := (List.take_sublist _ _).subset h1
  have h2s : s2 ∈ srt := (List.take_sublist _ _).subset h2
  have h1r : s1 ∈ report := (List.mem_insertionSort countGe).mp h1s
  have h2r : s2 ∈ report := (List.mem_insertionSort countGe).mp h2s
  have h1k : s1.url ∈ insKeys [] (recs.map RawRecord.url) := by
    rw [← hkeys, ← hmapurl]
    exact List.mem_map_of_mem Stat.url h1r
  have h2k : s2.url ∈ insKeys [] (recs.map RawRecord.url) := by
    rw [← hkeys, ← hmapurl]
    exact List.mem_map_of_mem Stat.url h2r
  have h1u : s1.url ∈ recs.map RawRecord.url := by
    rcases insKeys_mem_inv _ [] s1.url h1k with h | h
    · cases h
    · exact h
  have h2u : s2.url ∈ recs.map RawRecord.url := by
    rcases insKeys_mem_inv _ [] s2.url h2k with h | h
    · cases h
    · exact h
  -- in the unsorted report, s1 comes strictly before s2
  have hidxr : idx s1 report < idx s2 report := by
    rw [idx_map_of_nodup Stat.url report hnodup_keys s1 h1r,
      idx_map_of_nodup Stat.url report hnodup_keys s2 h2r, hmapurl, hkeys]
    exact insKeys_first_order (recs.map RawRecord.url) [] s1.url s2.url
      (by intro h; cases h) (by intro h; cases h) hfirst h1u h2u
  -- stability of the sort carries the order over to the sorted report
  have hpair : [s1, s2] <+ report :=
    pair_sublist_of_idx s1 s2 report h1r h2r hidxr
  have hge : countGe s1 s2 := le_of_eq hcount.symm
  have hpairs : [s1, s2] <+ srt :=
    List.pair_sublist_insertionSort hge hpair
  have hnodup_srt : srt.Nodup :=
    (List.perm_insertionSort countGe report).symm.nodup hnodup_report
  have hidxs : idx s1 srt < idx s2 srt :=
    idx_lt_of_pair_sublist s1 s2 srt hnodup_srt hpairs
  -- truncation preserves the indices of retained rows
  rw [idx_take s1 srt N h1, idx_take s2 srt N h2]
  exact hidxs

/-- C10 witness: with the stream `(/a, 1)`, `(/b, 2)` both URLs have count 1,
and the report keeps `/a` (first observed) before `/b`. -/
theorem rank_tie_break_stable_witness :
    idx (statEntry 2 3 "/a" ⟨1, [1]⟩)
        (count_stats (analyze_log [⟨"/a", 1⟩, ⟨"/b", 2⟩]).1
          (analyze_log [⟨"/a", 1⟩, ⟨"/b", 2⟩]).2 10)
      < idx (statEntry 2 3 "/b" ⟨1, [2]⟩)
        (count_stats (analyze_log [⟨"/a", 1⟩, ⟨"/b", 2⟩]).1
          (analyze_log [⟨"/a", 1⟩, ⟨"/b", 2⟩]).2 10) :=
  rank_tie_break_stable [⟨"/a", 1⟩, ⟨"/b", 2⟩] 10
    (statEntry 2 3 "/a" ⟨1, [1]⟩) (statEntry 2 3 "/b" ⟨1, [2]⟩)
    (by with_unfolding_all decide) (by with_unfolding_all decide)
    (by with_unfolding_all decide) (by with_unfolding_all decide)

end LogAnalyzer
